import Mathlib

/-!
Verification of the wardrobe catalog browsing layer (`utils.js`,
`item.js`/grid page scripts) and a spec-level model of the generation
pipeline.  JavaScript strings are modelled as Lean `String`/`List Char`
(`toLowerCase` is modelled by `Char.toLower`, which agrees with the
JavaScript behaviour on the basic-latin range the catalog uses); JS
objects used as string-keyed maps are modelled as association lists in
insertion order; `localStorage` is modelled as the single stored cell
(`Option String`) under the key `wardrobeNotesV1`.
-/

namespace Wardrobe

/-! ## The slugify function (utils.js)

Source:
  export function slugify(str){
    return String(str).toLowerCase()
      .replace(/[^a-z0-9]+/g,'-')
      .replace(/(^-|-$)+/g,'');
  }

The first replace collapses every maximal run of characters outside
[a-z0-9] into a single hyphen; its output therefore never contains two
adjacent hyphens.  On such strings the second replace removes exactly
the leading hyphen (if any) and the trailing hyphen (if any): the
anchored alternation (^-|-$)+ can only match a single hyphen at
position 0 and a single hyphen just before the end of the string.
-/

/-- Membership in the character class [a-z0-9] of the first regex. -/
def isSlugChar (c : Char) : Bool :=
  (('a' ≤ c) && (c ≤ 'z')) || (('0' ≤ c) && (c ≤ '9'))

/-- One pass of the first replace: the Boolean records whether the scan
is currently inside a run of non-[a-z0-9] characters whose hyphen has
already been emitted. -/
def collapseAux : Bool → List Char → List Char
  | _, [] => []
  | inRun, c :: cs =>
    if isSlugChar c then c :: collapseAux false cs
    else if inRun then collapseAux true cs
    else '-' :: collapseAux true cs

/-- The replace /[^a-z0-9]+/g → '-'. -/
def collapseRuns (s : List Char) : List Char := collapseAux false s

/-- Remove a single leading hyphen. -/
def dropLeadHyphen (l : List Char) : List Char :=
  match l with
  | [] => []
  | c :: rest => if c = '-' then rest else c :: rest

/-- The replace /(^-|-$)+/g → '' as it acts on outputs of
`collapseRuns` (which never contain adjacent hyphens): remove the
leading hyphen and the trailing hyphen. -/
def stripHyphens (l : List Char) : List Char :=
  (dropLeadHyphen (dropLeadHyphen l).reverse).reverse

/-- slugify on character lists. -/
def slugifyData (s : List Char) : List Char :=
  stripHyphens (collapseRuns (s.map Char.toLower))

/-- utils.js slugify. -/
def slugify (s : String) : String := String.mk (slugifyData s.data)

/-- Model of the JavaScript `String.prototype.toLowerCase` (basic-latin
range, which `Char.toLower` implements). -/
def jsToLower (s : String) : String := String.mk (s.data.map Char.toLower)

/-- Grid page (line 80): slug := it.id || slugify of the template
literal category-filename. -/
def gridPageSlug (category filename : String) : String :=
  slugify (category ++ "-" ++ filename)

/-- Item page (line 20): slug := it.id || lowercased category,
a hyphen, lowercased filename — with no further normalization. -/
def itemPageSlug (category filename : String) : String :=
  jsToLower category ++ "-" ++ jsToLower filename

/-! ### Basic facts about the model -/

theorem collapseAux_map_toLower (b : Bool) (s t : List Char)
    (h : s.map Char.toLower = t.map Char.toLower) :
    collapseAux b (s.map Char.toLower) = collapseAux b (t.map Char.toLower) := by
  rw [h]

theorem slugifyData_congr_toLower (s t : List Char)
    (h : s.map Char.toLower = t.map Char.toLower) :
    slugifyData s = slugifyData t := by
  unfold slugifyData collapseRuns
  rw [h]

/-- Claim C1 helper: data of a String.mk. -/
theorem data_mk (l : List Char) : (String.mk l).data = l := rfl

/-- Claim C1: slugify over the joined category-filename string is
case-insensitive: if two categories agree after lowercasing and two
filenames agree after lowercasing, the computed slugs are equal. -/
theorem slugify_case_insensitive (c1 c2 f1 f2 : String)
    (hc : jsToLower c1 = jsToLower c2) (hf : jsToLower f1 = jsToLower f2) :
    slugify (c1 ++ "-" ++ f1) = slugify (c2 ++ "-" ++ f2) := by
  have hc' : c1.data.map Char.toLower = c2.data.map Char.toLower :=
    congrArg String.data hc
  have hf' : f1.data.map Char.toLower = f2.data.map Char.toLower :=
    congrArg String.data hf
  unfold slugify
  congr 1
  apply slugifyData_congr_toLower
  simp only [String.data_append, List.map_append]
  rw [hc', hf']

/-- Witness for C1: the concrete instance from the spec,
resolve("Shirts", "IMG_7053.HEIC") = resolve("shirts", "img_7053.heic"). -/
theorem slugify_case_insensitive_witness :
    jsToLower "Shirts" = jsToLower "shirts" ∧
    jsToLower "IMG_7053.HEIC" = jsToLower "img_7053.heic" ∧
    slugify ("Shirts" ++ "-" ++ "IMG_7053.HEIC") =
      slugify ("shirts" ++ "-" ++ "img_7053.heic") :=
  ⟨by decide, by decide,
   slugify_case_insensitive "Shirts" "shirts" "IMG_7053.HEIC" "img_7053.heic"
     (by decide) (by decide)⟩

/-! ### Claim C2: the two pages compute different slugs

The grid page normalizes through slugify; the item page concatenates the
lowercased fields unchanged, so any filename containing a character
outside [a-z0-9-] (every photo filename, which contains a dot) yields
two different slugs for the same item. -/

/-- Claim C2: at the concrete item (category "Shirts", filename
"IMG_7053.HEIC", no explicit id) the grid page computes
"shirts-img-7053-heic" while the item page computes
"shirts-img_7053.heic"; the two pages disagree, refuting the claim that
the two computations agree (navigation from the grid to the item page
relies on them agreeing). -/
theorem gridPageSlug_ne_itemPageSlug :
    gridPageSlug "Shirts" "IMG_7053.HEIC" = "shirts-img-7053-heic" ∧
    itemPageSlug "Shirts" "IMG_7053.HEIC" = "shirts-img_7053.heic" ∧
    gridPageSlug "Shirts" "IMG_7053.HEIC" ≠ itemPageSlug "Shirts" "IMG_7053.HEIC" :=
  ⟨by decide, by decide, by decide⟩

/-! ### Wellformedness of slugify (claim C4) -/

theorem collapseAux_all (b : Bool) (s : List Char) :
    (collapseAux b s).all (fun c => isSlugChar c || c == '-') = true := by
  induction s generalizing b with
  | nil => rfl
  | cons c cs ih =>
    unfold collapseAux
    by_cases h : isSlugChar c = true
    · simp [h, ih false]
    · simp only [h]
      by_cases hb : b
      · simpa [hb] using ih true
      · simp [hb, ih true]

theorem collapseAux_true_head (s : List Char) :
    (collapseAux true s).head? ≠ some '-' := by
  induction s with
  | nil => simp [collapseAux]
  | cons c cs ih =>
    unfold collapseAux
    by_cases h : isSlugChar c = true
    · simp only [h, if_true]
      intro hc
      simp only [List.head?_cons, Option.some.injEq] at hc
      subst hc
      exact absurd h (by decide)
    · simpa [h] using ih

/-- No two adjacent hyphens. -/
def noDoubleDash : List Char → Bool
  | c :: d :: rest => !(c == '-' && d == '-') && noDoubleDash (d :: rest)
  | _ => true

theorem noDoubleDash_cons (c : Char) (l : List Char) :
    noDoubleDash (c :: l) = true ↔
      (¬(c = '-' ∧ l.head? = some '-')) ∧ noDoubleDash l = true := by
  cases l with
  | nil => simp [noDoubleDash]
  | cons d rest =>
    simp only [noDoubleDash, Bool.and_eq_true, Bool.not_eq_true']
    constructor
    · rintro ⟨h1, h2⟩
      refine ⟨?_, h2⟩
      rintro ⟨rfl, hh⟩
      simp only [List.head?_cons, Option.some.injEq] at hh
      subst hh
      simp at h1
    · rintro ⟨h1, h2⟩
      refine ⟨?_, h2⟩
      by_cases hc : c = '-'
      · by_cases hd : d = '-'
        · exact absurd ⟨hc, by simp [hd]⟩ h1
        · simp [hd]
      · simp [hc]

theorem collapseAux_noDoubleDash (b : Bool) (s : List Char) :
    noDoubleDash (collapseAux b s) = true := by
  induction s generalizing b with
  | nil => rfl
  | cons c cs ih =>
    unfold collapseAux
    by_cases h : isSlugChar c = true
    · simp only [h, if_true]
      rw [noDoubleDash_cons]
      refine ⟨?_, ih false⟩
      rintro ⟨rfl, -⟩
      exact absurd h (by decide)
    · simp only [h]
      by_cases hb : b
      · simpa [hb] using ih true
      · simp only [hb, if_false, Bool.false_eq_true]
        rw [noDoubleDash_cons]
        exact ⟨fun hx => collapseAux_true_head cs hx.2, ih true⟩

theorem noDoubleDash_tail (l : List Char) (h : noDoubleDash l = true) :
    noDoubleDash l.tail = true := by
  cases l with
  | nil => rfl
  | cons c rest => exact ((noDoubleDash_cons c rest).1 h).2

theorem noDoubleDash_iff_chain (l : List Char) :
    noDoubleDash l = true ↔ l.Chain' (fun a b => ¬(a = '-' ∧ b = '-')) := by
  induction l with
  | nil => simp [noDoubleDash]
  | cons c rest ih =>
    rw [noDoubleDash_cons, List.chain'_cons']
    constructor
    · rintro ⟨h1, h2⟩
      refine ⟨?_, ih.1 h2⟩
      intro y hy
      rintro ⟨rfl, rfl⟩
      exact h1 ⟨rfl, hy⟩
    · rintro ⟨h1, h2⟩
      refine ⟨?_, ih.2 h2⟩
      rintro ⟨rfl, hh⟩
      exact h1 '-' hh ⟨rfl, rfl⟩

theorem noDoubleDash_reverse (l : List Char) (h : noDoubleDash l = true) :
    noDoubleDash l.reverse = true := by
  rw [noDoubleDash_iff_chain] at h ⊢
  rw [List.chain'_reverse]
  exact h.imp (fun a b hab => fun hx => hab ⟨hx.2, hx.1⟩)

theorem dropLeadHyphen_eq_or_tail (l : List Char) :
    dropLeadHyphen l = l ∨ dropLeadHyphen l = l.tail := by
  cases l with
  | nil => left; rfl
  | cons c rest =>
    by_cases h : c = '-'
    · right; simp [dropLeadHyphen, h]
    · left; simp [dropLeadHyphen, h]

theorem noDoubleDash_dropLeadHyphen (l : List Char) (h : noDoubleDash l = true) :
    noDoubleDash (dropLeadHyphen l) = true := by
  rcases dropLeadHyphen_eq_or_tail l with heq | heq <;> rw [heq]
  · exact h
  · exact noDoubleDash_tail l h

theorem all_dropLeadHyphen (p : Char → Bool) (l : List Char) (h : l.all p = true) :
    (dropLeadHyphen l).all p = true := by
  rcases dropLeadHyphen_eq_or_tail l with heq | heq <;> rw [heq]
  · exact h
  · cases l with
    | nil => exact h
    | cons c rest => simp only [List.all_cons, Bool.and_eq_true] at h; exact h.2

theorem head_dropLeadHyphen (l : List Char) (h : noDoubleDash l = true) :
    (dropLeadHyphen l).head? ≠ some '-' := by
  cases l with
  | nil => simp [dropLeadHyphen]
  | cons c rest =>
    by_cases hc : c = '-'
    · subst hc
      simp only [dropLeadHyphen, if_pos rfl]
      intro hh
      exact ((noDoubleDash_cons _ _).1 h).1 ⟨rfl, hh⟩
    · simp [dropLeadHyphen, hc]

theorem all_stripHyphens (p : Char → Bool) (l : List Char) (h : l.all p = true) :
    (stripHyphens l).all p = true := by
  unfold stripHyphens
  rw [List.all_reverse]
  apply all_dropLeadHyphen
  rw [List.all_reverse]
  exact all_dropLeadHyphen p l h

theorem noDoubleDash_stripHyphens (l : List Char) (h : noDoubleDash l = true) :
    noDoubleDash (stripHyphens l) = true := by
  unfold stripHyphens
  apply noDoubleDash_reverse
  apply noDoubleDash_dropLeadHyphen
  apply noDoubleDash_reverse
  exact noDoubleDash_dropLeadHyphen l h

theorem getLast_stripHyphens (l : List Char) (h : noDoubleDash l = true) :
    (stripHyphens l).getLast? ≠ some '-' := by
  unfold stripHyphens
  rw [List.getLast?_reverse]
  apply head_dropLeadHyphen
  apply noDoubleDash_reverse
  exact noDoubleDash_dropLeadHyphen l h

theorem head_stripHyphens (l : List Char) (h : noDoubleDash l = true) :
    (stripHyphens l).head? ≠ some '-' := by
  have hm1 : (dropLeadHyphen l).head? ≠ some '-' := head_dropLeadHyphen l h
  unfold stripHyphens
  rw [List.head?_reverse]
  rcases hrev : (dropLeadHyphen l).reverse with _ | ⟨c, rest⟩
  · simp [dropLeadHyphen]
  · by_cases hc : c = '-'
    · subst hc
      have hstep : dropLeadHyphen ('-' :: rest) = rest := by simp [dropLeadHyphen]
      rw [hstep]
      have hm1eq : dropLeadHyphen l = rest.reverse ++ ['-'] := by
        have h2 := congrArg List.reverse hrev
        simpa using h2
      rcases hrr : rest.reverse with _ | ⟨a, t⟩
      · have hnil : rest = [] := by simpa using congrArg List.reverse hrr
        rw [hnil]; simp
      · have hha : (dropLeadHyphen l).head? = some a := by rw [hm1eq, hrr]; rfl
        have ha : a ≠ '-' := fun hEq => hm1 (by rw [hha, hEq])
        rw [← List.head?_reverse, hrr]
        simpa using ha
    · have hstep : dropLeadHyphen (c :: rest) = c :: rest := by
        simp [dropLeadHyphen, hc]
      rw [hstep, ← hrev, List.getLast?_reverse]
      exact hm1

/-- Claim C4: for every input string the slug produced by slugify
contains only characters in [a-z0-9-], has no repeated separator runs
(no two adjacent hyphens), and neither starts nor ends with the
separator. -/
theorem slugify_wellformed (s : String) :
    (slugify s).data.all (fun c => isSlugChar c || c == '-') = true ∧
    noDoubleDash (slugify s).data = true ∧
    (slugify s).data.head? ≠ some '-' ∧
    (slugify s).data.getLast? ≠ some '-' := by
  show (slugifyData s.data).all _ = true ∧ noDoubleDash (slugifyData s.data) = true ∧
    (slugifyData s.data).head? ≠ some '-' ∧ (slugifyData s.data).getLast? ≠ some '-'
  unfold slugifyData collapseRuns
  have hnd : noDoubleDash (collapseAux false (s.data.map Char.toLower)) = true :=
    collapseAux_noDoubleDash _ _
  exact ⟨all_stripHyphens _ _ (collapseAux_all _ _),
    noDoubleDash_stripHyphens _ hnd,
    head_stripHyphens _ hnd,
    getLast_stripHyphens _ hnd⟩

/-! ### Category normalization (claim C5) -/

theorem toLower_toLower (c : Char) : c.toLower.toLower = c.toLower := by
  unfold Char.toLower
  by_cases h : 65 ≤ c.toNat ∧ c.toNat ≤ 90
  · rw [if_pos h]
    have hv : (c.toNat + 32).isValidChar := Or.inl (by omega)
    have ht : (Char.ofNat (c.toNat + 32)).toNat = c.toNat + 32 := by
      rw [Char.ofNat, dif_pos hv]
      rfl
    rw [if_neg]
    rw [ht]
    omega
  · rw [if_neg h, if_neg h]

theorem map_toLower_idem (l : List Char) :
    (l.map Char.toLower).map Char.toLower = l.map Char.toLower := by
  have hcomp : Char.toLower ∘ Char.toLower = Char.toLower := funext toLower_toLower
  rw [List.map_map, hcomp]

def endState : Bool → List Char → Bool
  | b, [] => b
  | _, c :: cs => endState (!isSlugChar c) cs

theorem endState_append (b : Bool) (s : List Char) (x : Char) :
    endState b (s ++ [x]) = !isSlugChar x := by
  induction s generalizing b with
  | nil => rfl
  | cons c cs ih => simpa [endState] using ih (!isSlugChar c)

theorem collapseAux_append_slug (b : Bool) (s : List Char) (x : Char)
    (hx : isSlugChar x = true) :
    collapseAux b (s ++ [x]) = collapseAux b s ++ [x] := by
  induction s generalizing b with
  | nil => simp [collapseAux, hx]
  | cons c cs ih =>
    unfold collapseAux
    by_cases h : isSlugChar c = true
    · simp [h, ih false]
    · by_cases hb : b
      · simp [h, hb, ih true]
      · simp [h, hb, ih true]

theorem collapseAux_append_nonslug (b : Bool) (s : List Char) (x : Char)
    (hx : isSlugChar x = false) :
    collapseAux b (s ++ [x]) =
      collapseAux b s ++ (if endState b s then [] else ['-']) := by
  induction s generalizing b with
  | nil =>
    cases b <;> simp [collapseAux, endState, hx]
  | cons c cs ih =>
    unfold collapseAux endState
    by_cases h : isSlugChar c = true
    · simp [h, ih false]
    · by_cases hb : b
      · simp [h, hb, ih true]
      · simp [h, hb, ih true]

theorem dropLeadHyphen_append (l l2 : List Char) (h : l ≠ []) :
    dropLeadHyphen (l ++ l2) = dropLeadHyphen l ++ l2 := by
  cases l with
  | nil => exact absurd rfl h
  | cons c rest =>
    by_cases hc : c = '-' <;> simp [dropLeadHyphen, hc]

theorem getLast?_cons_of_ne_nil (c : Char) (l : List Char) (h : l ≠ []) :
    (c :: l).getLast? = l.getLast? := by
  cases l with
  | nil => exact absurd rfl h
  | cons d rest => simp [List.getLast?_cons_cons]

theorem dropLeadHyphen_of_head_ne (x : List Char) (h : x.head? ≠ some '-') :
    dropLeadHyphen x = x := by
  cases x with
  | nil => rfl
  | cons a t =>
    have ha : a ≠ '-' := by
      intro hEq
      exact h (by rw [hEq]; rfl)
    simp [dropLeadHyphen, ha]

theorem stripHyphens_append_dash (m : List Char) (h : m.getLast? ≠ some '-') :
    stripHyphens (m ++ ['-']) = stripHyphens m := by
  cases m with
  | nil => rfl
  | cons c rest =>
    have hne : (c :: rest) ≠ [] := by simp
    unfold stripHyphens
    rw [dropLeadHyphen_append _ _ hne]
    rw [List.reverse_append]
    have hstep :
        dropLeadHyphen (['-'].reverse ++ (dropLeadHyphen (c :: rest)).reverse) =
          (dropLeadHyphen (c :: rest)).reverse := by
      simp [dropLeadHyphen]
    rw [hstep]
    have hlast : (dropLeadHyphen (c :: rest)).getLast? ≠ some '-' := by
      rcases dropLeadHyphen_eq_or_tail (c :: rest) with heq | heq <;> rw [heq]
      · exact h
      · rcases Classical.em (rest = []) with hr | hr
        · rw [hr]; simp
        · rw [List.tail_cons, ← getLast?_cons_of_ne_nil c rest hr]
          exact h
    have hdl : dropLeadHyphen (dropLeadHyphen (c :: rest)).reverse =
        (dropLeadHyphen (c :: rest)).reverse := by
      apply dropLeadHyphen_of_head_ne
      rw [List.head?_reverse]
      exact hlast
    rw [hdl]

theorem slugify_slash (t : List Char) :
    stripHyphens (collapseAux false (t ++ ['/'])) =
      stripHyphens (collapseAux false t) := by
  rcases List.eq_nil_or_concat t with hnil | ⟨u, a, heq⟩
  · rw [hnil]; decide
  · rw [heq, List.concat_eq_append]
    rw [collapseAux_append_nonslug false (u ++ [a]) '/' (by decide)]
    rw [endState_append]
    by_cases ha : isSlugChar a = true
    · rw [ha]
      simp only [Bool.not_true, Bool.false_eq_true, if_false]
      apply stripHyphens_append_dash
      rw [collapseAux_append_slug false u a ha, List.getLast?_concat]
      intro hcontra
      simp only [Option.some.injEq] at hcontra
      rw [hcontra] at ha
      exact absurd ha (by decide)
    · simp only [Bool.not_eq_true] at ha
      rw [ha]
      simp

/-- Claim C5: category normalization identifies case and trailing-slash
variants: slugify(d) = slugify(lowercase d) and slugify(d ++ "/") =
slugify(d). -/
theorem slugify_category_normalization (d : String) :
    slugify d = slugify (jsToLower d) ∧ slugify (d ++ "/") = slugify d := by
  constructor
  · unfold slugify jsToLower
    congr 1
    apply slugifyData_congr_toLower
    rw [data_mk, map_toLower_idem]
  · unfold slugify
    congr 1
    show slugifyData (d.data ++ ['/']) = slugifyData d.data
    unfold slugifyData collapseRuns
    rw [List.map_append]
    have hmap : (['/'] : List Char).map Char.toLower = ['/'] := by decide
    rw [hmap]
    exact slugify_slash (d.data.map Char.toLower)

/-! ## Effective notes in the browsing layer (claim C6)

Item page line 31-32 and grid page lines 132-133 both read
  const override = NOTES[it.slug];
  const notes = override?.notes ?? it.notes ?? "";
-/

/-- Browser-local override record NOTES[slug]; the notes field may be
absent (undefined in JS). -/
structure OverrideRec where
  notes : Option String
deriving DecidableEq, Repr

abbrev OverrideMap := List (String × OverrideRec)

def effExpr (ov : Option OverrideRec) (itemNotes : Option String) : String :=
  match ov with
  | some o =>
    match o.notes with
    | some n => n
    | none => itemNotes.getD ""
  | none => itemNotes.getD ""

def itemPageDisplayedNotes (notesMap : OverrideMap) (slug : String)
    (itemNotes : Option String) : String :=
  effExpr (notesMap.lookup slug) itemNotes

def gridEffectiveNotes (notesMap : OverrideMap) (slug : String)
    (itemNotes : Option String) : String :=
  effExpr (notesMap.lookup slug) itemNotes

/-- Claim C6: effective-notes precedence — both pages display (and the
grid page searches) the override record's notes field when an override
for the item's slug exists with a non-null notes field, otherwise the
artifact item's notes field when non-null, otherwise the empty
string. -/
theorem effective_notes_precedence (nm : OverrideMap) (slug : String)
    (itemNotes : Option String) :
    gridEffectiveNotes nm slug itemNotes = itemPageDisplayedNotes nm slug itemNotes ∧
    (∀ o n, nm.lookup slug = some o → o.notes = some n →
      itemPageDisplayedNotes nm slug itemNotes = n) ∧
    ((nm.lookup slug = none ∨ ∃ o, nm.lookup slug = some o ∧ o.notes = none) →
      itemPageDisplayedNotes nm slug itemNotes = itemNotes.getD "") := by
  refine ⟨rfl, ?_, ?_⟩
  · intro o n ho hn
    unfold itemPageDisplayedNotes effExpr
    rw [ho]
    simp [hn]
  · rintro (ho | ⟨o, ho, hn⟩)
    · unfold itemPageDisplayedNotes effExpr
      rw [ho]
    · unfold itemPageDisplayedNotes effExpr
      rw [ho]
      simp [hn]

theorem effective_notes_precedence_witness :
    itemPageDisplayedNotes [("shirts-a", ⟨some "local note"⟩)] "shirts-a" (some "generated") =
      "local note" ∧
    itemPageDisplayedNotes [] "shirts-a" (some "generated") = "generated" ∧
    itemPageDisplayedNotes [] "shirts-a" none = "" :=
  ⟨(effective_notes_precedence [("shirts-a", ⟨some "local note"⟩)] "shirts-a"
      (some "generated")).2.1 ⟨some "local note"⟩ "local note" (by decide) rfl,
   (effective_notes_precedence [] "shirts-a" (some "generated")).2.2 (Or.inl rfl),
   (effective_notes_precedence [] "shirts-a" none).2.2 (Or.inl rfl)⟩

/-! ## Import, save and reset handlers (claims C7 and C8)

Grid page import handler (lines 103-123): JSON.parse the selected file;
if typeof incoming === "object" && !Array.isArray(incoming) then
  merged = \x7b...NOTES, ...incoming\x7d and merged is stored; any parse error
or non-object leaves the stored map unchanged.  Note typeof null is
"object" in JS, and spreading null adds no keys, so a stored null also
leaves the map unchanged.

Item page handlers (lines 50-62): save does NOTES[it.slug] =
\x7bnotes: notesEditEl.value\x7d, reset deletes NOTES[it.slug]; both then persist
NOTES via saveNotesMap.
-/

/-- JSON values, for the result of JSON.parse in the import handler. -/
inductive JsValue where
  | jnull : JsValue
  | jbool : Bool → JsValue
  | jnum : Int → JsValue
  | jstr : String → JsValue
  | jarr : List JsValue → JsValue
  | jobj : List (String × JsValue) → JsValue

abbrev JsObj := List (String × JsValue)

/-- JS object spread {...a, ...b}: the keys of a in order, each with
b's value when b also has the key, followed by the keys of b not in a. -/
def spreadMerge (a b : JsObj) : JsObj :=
  a.map (fun p =>
    match b.lookup p.1 with
    | some v => (p.1, v)
    | none => p) ++
  b.filter (fun q => (a.lookup q.1).isNone)

/-- Import handler: parse result of the selected file (none = JSON.parse
threw); merge only when typeof is object and not an array (objects and
null); otherwise leave NOTES unchanged. -/
def importNotesHandler (notes : JsObj) (parsed : Option JsValue) : JsObj :=
  match parsed with
  | some (JsValue.jobj incoming) => spreadMerge notes incoming
  | some JsValue.jnull => spreadMerge notes []
  | _ => notes

theorem lookup_mapOverride (a b : JsObj) (k : String) :
    (a.map (fun p =>
      match b.lookup p.1 with
      | some v => (p.1, v)
      | none => p)).lookup k =
    (a.lookup k).map (fun w =>
      match b.lookup k with
      | some v => v
      | none => w) := by
  induction a with
  | nil => rfl
  | cons p rest ih =>
    obtain ⟨k0, v0⟩ := p
    by_cases hk : k = k0
    · subst hk
      rcases hb : b.lookup k with _ | v <;>
        simp [List.lookup_cons, hb]
    · have hbeq : (k == k0) = false := by simp [hk]
      rcases hb : b.lookup k0 with _ | v <;>
        simp [List.lookup_cons, hb, hbeq, ih]

theorem lookup_filterNew (a b : JsObj) (k : String) (ha : a.lookup k = none) :
    (b.filter (fun q => (a.lookup q.1).isNone)).lookup k = b.lookup k := by
  induction b with
  | nil => rfl
  | cons q rest ih =>
    obtain ⟨k0, w⟩ := q
    by_cases hk : k = k0
    · subst hk
      simp [List.filter_cons, ha, List.lookup_cons, ih]
    · have hbeq : (k == k0) = false := by simp [hk]
      rcases hq : (a.lookup k0).isNone with _ | _
      · simp [List.filter_cons, hq, List.lookup_cons, hbeq, ih]
      · simp [List.filter_cons, hq, List.lookup_cons, hbeq, ih]

theorem spreadMerge_nil (a : JsObj) : spreadMerge a [] = a := by
  unfold spreadMerge
  simp

/-- Claim C7: importing a notes file is a last-write-wins merge — when
the file parses as a JSON object (not an array), every key of the
incoming object maps to the incoming value in the resulting stored map,
keys present only in the existing map keep their value, and a parse
failure or non-object value leaves the stored map unchanged. -/
theorem importNotes_merge (notes incoming : JsObj) (parsed : Option JsValue)
    (k : String) :
    (∀ v, incoming.lookup k = some v →
      (importNotesHandler notes (some (JsValue.jobj incoming))).lookup k = some v) ∧
    (incoming.lookup k = none →
      (importNotesHandler notes (some (JsValue.jobj incoming))).lookup k =
        notes.lookup k) ∧
    ((parsed = none ∨ ∀ entries, parsed ≠ some (JsValue.jobj entries)) →
      importNotesHandler notes parsed = notes) := by
  refine ⟨?_, ?_, ?_⟩
  · intro v hv
    unfold importNotesHandler spreadMerge
    rw [List.lookup_append, lookup_mapOverride]
    rcases hn : notes.lookup k with _ | w
    · simp [hv, lookup_filterNew notes incoming k hn]
    · simp [hv]
  · intro hv
    unfold importNotesHandler spreadMerge
    rw [List.lookup_append, lookup_mapOverride]
    rcases hn : notes.lookup k with _ | w
    · simp [hv, lookup_filterNew notes incoming k hn, hn]
    · simp [hv, hn]
  · rintro (rfl | hno)
    · rfl
    · rcases parsed with _ | v
      · rfl
      · rcases v with _ | b | n | s | elts | entries
        · exact spreadMerge_nil notes
        · rfl
        · rfl
        · rfl
        · rfl
        · exact absurd rfl (hno entries)

structure NoteRec where
  notes : String
deriving DecidableEq, Repr

abbrev NotesMap := List (String × NoteRec)

def setKey : NotesMap → String → NoteRec → NotesMap
  | [], k, v => [(k, v)]
  | (k0, v0) :: rest, k, v =>
    if k0 = k then (k0, v) :: rest else (k0, v0) :: setKey rest k v

def delKey : NotesMap → String → NotesMap
  | [], _ => []
  | (k0, v0) :: rest, k =>
    if k0 = k then rest else (k0, v0) :: delKey rest k

theorem lookup_setKey_self (notes : NotesMap) (slug : String) (v : NoteRec) :
    (setKey notes slug v).lookup slug = some v := by
  induction notes with
  | nil => simp [setKey, List.lookup_cons]
  | cons p rest ih =>
    obtain ⟨k0, v0⟩ := p
    by_cases h : k0 = slug
    · subst h
      simp [setKey, List.lookup_cons]
    · have hbeq : (slug == k0) = false := by simp [Ne.symm h]
      simp [setKey, h, List.lookup_cons, hbeq, ih]

theorem lookup_setKey_other (notes : NotesMap) (slug k : String) (v : NoteRec)
    (hk : k ≠ slug) :
    (setKey notes slug v).lookup k = notes.lookup k := by
  have hks : (k == slug) = false := by simp [hk]
  induction notes with
  | nil => simp [setKey, List.lookup_cons, hks]
  | cons p rest ih =>
    obtain ⟨k0, v0⟩ := p
    by_cases h : k0 = slug
    · subst h
      have hbeq : (k == k0) = false := by simp [hk]
      simp [setKey, List.lookup_cons, hbeq]
    · by_cases hk0 : k = k0
      · subst hk0
        simp [setKey, h, List.lookup_cons]
      · have hbeq : (k == k0) = false := by simp [hk0]
        simp [setKey, h, List.lookup_cons, hbeq, ih]

theorem lookup_delKey_self (notes : NotesMap) (slug : String)
    (hnd : (notes.map Prod.fst).Nodup) :
    (delKey notes slug).lookup slug = none := by
  induction notes with
  | nil => simp [delKey]
  | cons p rest ih =>
    obtain ⟨k0, v0⟩ := p
    simp only [List.map_cons, List.nodup_cons] at hnd
    by_cases h : k0 = slug
    · subst h
      have hstep : delKey ((k0, v0) :: rest) k0 = rest := by simp [delKey]
      rw [hstep, List.lookup_eq_none_iff]
      intro q hq
      have hmem : q.1 ∈ rest.map Prod.fst := List.mem_map_of_mem Prod.fst hq
      have hne : k0 ≠ q.1 := fun he => hnd.1 (he ▸ hmem)
      simpa using hne
    · have hbeq : (slug == k0) = false := by simp [Ne.symm h]
      simp [delKey, h, List.lookup_cons, hbeq, ih hnd.2]

theorem lookup_delKey_other (notes : NotesMap) (slug k : String) (hk : k ≠ slug) :
    (delKey notes slug).lookup k = notes.lookup k := by
  induction notes with
  | nil => simp [delKey]
  | cons p rest ih =>
    obtain ⟨k0, v0⟩ := p
    by_cases h : k0 = slug
    · subst h
      have hbeq : (k == k0) = false := by simp [hk]
      simp [delKey, List.lookup_cons, hbeq]
    · by_cases hk0 : k = k0
      · subst hk0
        simp [delKey, h, List.lookup_cons]
      · have hbeq : (k == k0) = false := by simp [hk0]
        simp [delKey, h, List.lookup_cons, hbeq, ih]

def saveNotesHandler (notes : NotesMap) (slug text : String) : NotesMap :=
  setKey notes slug ⟨text⟩

def resetNotesHandler (notes : NotesMap) (slug : String) : NotesMap :=
  delKey notes slug

theorem importNotes_merge_witness :
    (importNotesHandler [("a", JsValue.jstr "old"), ("b", JsValue.jstr "keep")]
      (some (JsValue.jobj [("a", JsValue.jstr "new"), ("c", JsValue.jstr "add")]))).lookup "a" =
      some (JsValue.jstr "new") ∧
    (importNotesHandler [("a", JsValue.jstr "old"), ("b", JsValue.jstr "keep")]
      (some (JsValue.jobj [("a", JsValue.jstr "new"), ("c", JsValue.jstr "add")]))).lookup "b" =
      some (JsValue.jstr "keep") ∧
    importNotesHandler [("b", JsValue.jstr "keep")] (some (JsValue.jarr [])) =
      [("b", JsValue.jstr "keep")] := by
  refine ⟨?_, ?_, ?_⟩
  · exact (importNotes_merge [("a", JsValue.jstr "old"), ("b", JsValue.jstr "keep")]
      [("a", JsValue.jstr "new"), ("c", JsValue.jstr "add")] none "a").1
      (JsValue.jstr "new") rfl
  · rw [(importNotes_merge [("a", JsValue.jstr "old"), ("b", JsValue.jstr "keep")]
      [("a", JsValue.jstr "new"), ("c", JsValue.jstr "add")] none "b").2.1 rfl]
    rfl
  · exact (importNotes_merge [("b", JsValue.jstr "keep")] [] (some (JsValue.jarr []))
      "x").2.2 (Or.inr (by intro entries h; simp at h))

/-! ## The notes store (claims C9 and C10)

utils.js:
  const NOTES_KEY = "wardrobeNotesV1";
  export function loadNotesMap()\x7b
    try\x7b
      const raw = localStorage.getItem(NOTES_KEY);
      return raw ? JSON.parse(raw) : \x7b\x7d;
    \x7dcatch(e)\x7b return \x7b\x7d; \x7d
  \x7d
  export function saveNotesMap(map)\x7b
    localStorage.setItem(NOTES_KEY, JSON.stringify(map));
  \x7d

The storage cell is modelled as `Option String`; `JSON.stringify` and
`JSON.parse` (browser builtins, not repository code) are modelled by a
concrete printer and recursive-descent parser for the notes-map JSON
fragment the store writes — compact objects of \x7b"slug": \x7b"notes":
string\x7d\x7d records with string escaping for quote and backslash; the
parser returns `none` on any input the fragment grammar rejects, which
models `JSON.parse` throwing.
-/

def escChar (c : Char) : List Char :=
  if c = '"' then ['\\', '"']
  else if c = '\\' then ['\\', '\\']
  else [c]

def escData : List Char → List Char
  | [] => []
  | c :: cs => escChar c ++ escData cs

def parseStrAux : List Char → Option (List Char × List Char)
  | [] => none
  | c :: rest =>
    if c = '"' then some ([], rest)
    else if c = '\\' then
      match rest with
      | [] => none
      | d :: rest2 =>
        if d = '"' ∨ d = '\\' then (parseStrAux rest2).map (fun p => (d :: p.1, p.2))
        else none
    else (parseStrAux rest).map (fun p => (c :: p.1, p.2))

theorem parseStrAux_round (s rest : List Char) :
    parseStrAux (escData s ++ ('"' :: rest)) = some (s, rest) := by
  induction s with
  | nil =>
    show parseStrAux ([] ++ ('"' :: rest)) = some ([], rest)
    rw [List.nil_append, parseStrAux.eq_def]
    simp
  | cons c cs ih =>
    by_cases hq : c = '"'
    · subst hq
      show parseStrAux ((['\\', '"'] ++ escData cs) ++ ('"' :: rest)) = _
      rw [List.append_assoc, parseStrAux.eq_def]
      simp [ih]
    · by_cases hb : c = '\\'
      · subst hb
        show parseStrAux ((['\\', '\\'] ++ escData cs) ++ ('"' :: rest)) = _
        rw [List.append_assoc, parseStrAux.eq_def]
        simp [ih]
      · show parseStrAux ((escChar c ++ escData cs) ++ ('"' :: rest)) = _
        rw [escChar, if_neg hq, if_neg hb, List.append_assoc, parseStrAux.eq_def]
        simp [hq, hb, ih]

def expectLit : List Char → List Char → Option (List Char)
  | [], input => some input
  | _ :: _, [] => none
  | l :: ls, c :: cs => if c = l then expectLit ls cs else none

theorem expectLit_round (lit rest : List Char) :
    expectLit lit (lit ++ rest) = some rest := by
  induction lit with
  | nil => rfl
  | cons l ls ih => simp [expectLit, ih]

def noteObjHeader : List Char :=
  ['\x7b', '"', 'n', 'o', 't', 'e', 's', '"', ':', '"']

def printNoteRec (v : NoteRec) : List Char :=
  noteObjHeader ++ escData v.notes.data ++ ['"', '\x7d']

def parseNoteRec (input : List Char) : Option (NoteRec × List Char) :=
  match expectLit noteObjHeader input with
  | none => none
  | some r1 =>
    match parseStrAux r1 with
    | none => none
    | some (v, r2) =>
      match r2 with
      | '\x7d' :: r3 => some (⟨String.mk v⟩, r3)
      | _ => none

theorem parseNoteRec_round (v : NoteRec) (rest : List Char) :
    parseNoteRec (printNoteRec v ++ rest) = some (v, rest) := by
  unfold parseNoteRec printNoteRec
  have hsh : (noteObjHeader ++ escData v.notes.data ++ ['"', '\x7d']) ++ rest =
      noteObjHeader ++ (escData v.notes.data ++ ('"' :: ('\x7d' :: rest))) := by
    simp [List.append_assoc]
  rw [hsh]
  simp [expectLit_round, parseStrAux_round]

def parseEntriesAux : Nat → List Char → Option (List (String × NoteRec) × List Char)
  | _, '\x7d' :: r => some ([], r)
  | fuel + 1, '"' :: r0 =>
    (match parseStrAux r0 with
     | some (k, ':' :: r1) =>
       (match parseNoteRec r1 with
        | some (v, ',' :: r2) =>
          (parseEntriesAux fuel r2).map (fun p => ((String.mk k, v) :: p.1, p.2))
        | some (v, '\x7d' :: r2) => some ([(String.mk k, v)], r2)
        | _ => none)
     | _ => none)
  | _, _ => none

def printEntry (k : String) (v : NoteRec) : List Char :=
  '"' :: (escData k.data ++ ('"' :: (':' :: printNoteRec v)))

def printEntriesTail : List (String × NoteRec) → List Char
  | [] => ['\x7d']
  | [(k, v)] => printEntry k v ++ ['\x7d']
  | (k, v) :: rest => printEntry k v ++ (',' :: printEntriesTail rest)

theorem parseEntriesAux_round (m : List (String × NoteRec)) (fuel : Nat)
    (rest : List Char) (hf : m.length ≤ fuel) :
    parseEntriesAux fuel (printEntriesTail m ++ rest) = some (m, rest) := by
  induction m generalizing fuel rest with
  | nil =>
    show parseEntriesAux fuel ('\x7d' :: rest) = some ([], rest)
    rw [parseEntriesAux.eq_def]
    rcases fuel with _ | f <;> simp
  | cons hd tl ih =>
    obtain ⟨k, v⟩ := hd
    rcases fuel with _ | f
    · simp at hf
    cases tl with
    | nil =>
      show parseEntriesAux (f + 1)
        ((printEntry k v ++ ['\x7d']) ++ rest) = some ([(k, v)], rest)
      have hsh : (printEntry k v ++ ['\x7d']) ++ rest =
          '"' :: (escData k.data ++ ('"' :: (':' :: (printNoteRec v ++ ('\x7d' :: rest))))) := by
        simp [printEntry, List.append_assoc]
      rw [hsh, parseEntriesAux.eq_def]
      simp [parseStrAux_round, parseNoteRec_round]
    | cons q qs =>
      show parseEntriesAux (f + 1)
        ((printEntry k v ++ (',' :: printEntriesTail (q :: qs))) ++ rest) =
        some ((k, v) :: q :: qs, rest)
      have hsh : (printEntry k v ++ (',' :: printEntriesTail (q :: qs))) ++ rest =
          '"' :: (escData k.data ++ ('"' :: (':' ::
            (printNoteRec v ++ (',' :: (printEntriesTail (q :: qs) ++ rest)))))) := by
        simp [printEntry, List.append_assoc]
      rw [hsh, parseEntriesAux.eq_def]
      have htl : (q :: qs).length ≤ f := by
        simpa using Nat.lt_of_succ_le (by simpa using hf)
      simp [parseStrAux_round, parseNoteRec_round, ih f _ htl]

def stringifyNotesData (m : List (String × NoteRec)) : List Char :=
  '\x7b' :: printEntriesTail m

def parseNotesData (input : List Char) : Option (List (String × NoteRec)) :=
  match input with
  | '\x7b' :: r =>
    (match parseEntriesAux r.length r with
     | some (m, []) => some m
     | _ => none)
  | _ => none

theorem printEntriesTail_length (m : List (String × NoteRec)) :
    m.length ≤ (printEntriesTail m).length := by
  induction m with
  | nil => simp [printEntriesTail]
  | cons hd tl ih =>
    obtain ⟨k, v⟩ := hd
    cases tl with
    | nil => simp [printEntriesTail, printEntry]
    | cons q qs =>
      show (q :: qs).length + 1 ≤ (printEntry k v ++ (',' :: printEntriesTail (q :: qs))).length
      have h1 : 1 ≤ (printEntry k v).length := by simp [printEntry]
      have ih2 : (q :: qs).length ≤ (printEntriesTail (q :: qs)).length := ih
      simp only [List.length_append, List.length_cons] at ih2 ⊢
      omega

theorem parseNotesData_round (m : List (String × NoteRec)) :
    parseNotesData (stringifyNotesData m) = some m := by
  unfold stringifyNotesData parseNotesData
  have h1 : parseEntriesAux (printEntriesTail m).length (printEntriesTail m ++ []) =
      some (m, []) :=
    parseEntriesAux_round m _ [] (printEntriesTail_length m)
  rw [List.append_nil] at h1
  simp [h1]

def stringifyNotes (m : List (String × NoteRec)) : String :=
  String.mk (stringifyNotesData m)

def parseNotes (s : String) : Option (List (String × NoteRec)) :=
  parseNotesData s.data

def saveNotesMapStore (m : List (String × NoteRec)) : Option String :=
  some (stringifyNotes m)

def loadNotesMapStore (cell : Option String) : List (String × NoteRec) :=
  match cell with
  | none => []
  | some raw =>
    (match parseNotes raw with
     | some m => m
     | none => [])

theorem store_roundtrip (m : List (String × NoteRec)) :
    loadNotesMapStore (saveNotesMapStore m) = m := by
  unfold loadNotesMapStore saveNotesMapStore parseNotes stringifyNotes
  simp [parseNotesData_round m]

/-- Claim C9: round trip of the notes store — loadNotesMap immediately
after saveNotesMap(m) returns a map equal to m. -/
theorem loadNotesMap_roundtrip (m : List (String × NoteRec)) :
    loadNotesMapStore (saveNotesMapStore m) = m :=
  store_roundtrip m

/-- Claim C10: loadNotesMap is total — it is a Lean function (hence
never throws) and returns the empty map both when no notes entry exists
in storage and when the stored string is not valid JSON. -/
theorem loadNotesMap_total (cell : Option String) :
    (cell = none → loadNotesMapStore cell = []) ∧
    (∀ s, cell = some s → parseNotes s = none → loadNotesMapStore cell = []) := by
  constructor
  · rintro rfl
    rfl
  · rintro s rfl hp
    unfold loadNotesMapStore
    simp [hp]

/-- Claim C8: saving sets exactly the current slug's entry and resetting
removes exactly the current slug's entry in the persisted notes map
(the map read back from storage after the handler saves); every other
key's binding is unchanged.  The Nodup hypothesis is the JS-object
invariant that keys are unique. -/
theorem save_reset_frame (notes : NotesMap) (slug text k : String)
    (hnd : (notes.map Prod.fst).Nodup) :
    (loadNotesMapStore (saveNotesMapStore
      (saveNotesHandler notes slug text))).lookup slug = some ⟨text⟩ ∧
    (k ≠ slug → (loadNotesMapStore (saveNotesMapStore
      (saveNotesHandler notes slug text))).lookup k = notes.lookup k) ∧
    (loadNotesMapStore (saveNotesMapStore
      (resetNotesHandler notes slug))).lookup slug = none ∧
    (k ≠ slug → (loadNotesMapStore (saveNotesMapStore
      (resetNotesHandler notes slug))).lookup k = notes.lookup k) := by
  rw [store_roundtrip (saveNotesHandler notes slug text),
    store_roundtrip (resetNotesHandler notes slug)]
  exact ⟨lookup_setKey_self notes slug ⟨text⟩,
    fun hk => lookup_setKey_other notes slug k ⟨text⟩ hk,
    lookup_delKey_self notes slug hnd,
    fun hk => lookup_delKey_other notes slug k hk⟩

/-- Witness for C8 at a concrete two-entry map. -/
theorem save_reset_frame_witness :
    (([("a", NoteRec.mk "x"), ("b", NoteRec.mk "y")].map Prod.fst).Nodup ∧
      ("b" : String) ≠ "a") ∧
    (loadNotesMapStore (saveNotesMapStore
      (saveNotesHandler [("a", ⟨"x"⟩), ("b", ⟨"y"⟩)] "a" "edited"))).lookup "a" =
      some ⟨"edited"⟩ ∧
    (loadNotesMapStore (saveNotesMapStore
      (saveNotesHandler [("a", ⟨"x"⟩), ("b", ⟨"y"⟩)] "a" "edited"))).lookup "b" =
      some ⟨"y"⟩ ∧
    (loadNotesMapStore (saveNotesMapStore
      (resetNotesHandler [("a", ⟨"x"⟩), ("b", ⟨"y"⟩)] "a"))).lookup "a" = none ∧
    (loadNotesMapStore (saveNotesMapStore
      (resetNotesHandler [("a", ⟨"x"⟩), ("b", ⟨"y"⟩)] "a"))).lookup "b" =
      some ⟨"y"⟩ := by
  have h := save_reset_frame [("a", ⟨"x"⟩), ("b", ⟨"y"⟩)] "a" "edited" "b"
    (by simp)
  refine ⟨⟨by simp, by simp⟩, h.1, ?_, h.2.2.1, ?_⟩
  · rw [h.2.1 (by simp)]; rfl
  · rw [h.2.2.2 (by simp)]; rfl

theorem loadNotesMap_total_witness :
    loadNotesMapStore none = [] ∧
    (parseNotes "oops" = none ∧ loadNotesMapStore (some "oops") = []) :=
  ⟨(loadNotesMap_total none).1 rfl,
   by decide,
   (loadNotesMap_total (some "oops")).2 "oops" rfl (by decide)⟩

/-! ## Generation pipeline (claim C3)

The pipeline itself (Python, per the repository READMEs: uv run
generate_site.py, src/wardrobe/core/generator.py and
image_processor.py) is not among the sources; the model below is built
from the spec's contracts (sections 3, 4.2, 4.4 and 8). -/

structure SourceFile where
  id : String
  category : String
  bytes : Nat
deriving DecidableEq, Repr

structure OutEntry where
  id : String
  category : String
  hash : Nat
  thumb : Nat
  full : Nat
deriving DecidableEq, Repr

structure PipelineArtifact where
  generatedAt : Nat
  totalItems : Nat
  items : List OutEntry
deriving DecidableEq, Repr

/-- Modelled from the spec: the Python generation pipeline
(generate_site.py / the wardrobe.core generator and image processor) is
absent from the sources; only its READMEs and the spec describe it.
Image Pipeline contract (spec 4.2): compute a content hash of the
source bytes; if an output pair already exists for this id and its
recorded hash matches, skip transcoding (idempotent no-op); otherwise
transcode, producing thumbnail and full variants.  `hashB`, `thumbOf`
and `fullOf` abstract the hash and the two encoders; the returned Nat
counts transcodes performed (0 on a cache hit). -/
def processImage (hashB thumbOf fullOf : Nat → Nat) (prior : List OutEntry)
    (f : SourceFile) : OutEntry × Nat :=
  match prior.find? (fun e => e.id == f.id && e.hash == hashB f.bytes) with
  | some e => (e, 0)
  | none =>
    ({ id := f.id, category := f.category, hash := hashB f.bytes,
       thumb := thumbOf f.bytes, full := fullOf f.bytes }, 1)

/-- Modelled from the spec: one generation run (spec 2/4.4/4.5) — each
input file is processed against the prior output entries; the artifact
records the generation timestamp, the item total and the item list in
input order, alongside the total number of transcodes performed. -/
def runPipeline (hashB thumbOf fullOf : Nat → Nat) (prior : List OutEntry)
    (inputs : List SourceFile) (t : Nat) : PipelineArtifact × Nat :=
  ({ generatedAt := t,
     totalItems := (inputs.map (processImage hashB thumbOf fullOf prior)).length,
     items := (inputs.map (processImage hashB thumbOf fullOf prior)).map Prod.fst },
   ((inputs.map (processImage hashB thumbOf fullOf prior)).map Prod.snd).sum)

theorem processImage_hit (hashB thumbOf fullOf : Nat → Nat)
    (cache : List OutEntry) (f : SourceFile) (e : OutEntry)
    (hf : cache.find? (fun e2 => e2.id == f.id && e2.hash == hashB f.bytes) = some e) :
    processImage hashB thumbOf fullOf cache f = (e, 0) := by
  unfold processImage
  rw [hf]

theorem processImage_fst_id (hashB thumbOf fullOf : Nat → Nat)
    (prior : List OutEntry) (f : SourceFile) :
    (processImage hashB thumbOf fullOf prior f).1.id = f.id ∧
    (processImage hashB thumbOf fullOf prior f).1.hash = hashB f.bytes := by
  unfold processImage
  rcases hfind : prior.find? (fun e => e.id == f.id && e.hash == hashB f.bytes)
    with _ | e
  · rw [hfind]
    exact ⟨rfl, rfl⟩
  · rw [hfind]
    have hp := List.find?_some hfind
    simp only [Bool.and_eq_true, beq_iff_eq] at hp
    exact ⟨hp.1, hp.2⟩

theorem find_in_run1 (hashB thumbOf fullOf : Nat → Nat) (prior : List OutEntry)
    (inputs : List SourceFile) (f : SourceFile) (hmem : f ∈ inputs)
    (hids : (inputs.map SourceFile.id).Nodup) :
    (inputs.map (fun g => (processImage hashB thumbOf fullOf prior g).1)).find?
      (fun e => e.id == f.id && e.hash == hashB f.bytes) =
      some (processImage hashB thumbOf fullOf prior f).1 := by
  induction inputs with
  | nil => cases hmem
  | cons g gs ih =>
    simp only [List.map_cons, List.nodup_cons] at hids
    rw [List.map_cons]
    rcases List.mem_cons.1 hmem with rfl | hmem2
    · have hg := processImage_fst_id hashB thumbOf fullOf prior f
      rw [List.find?_cons_of_pos]
      simp [hg.1, hg.2]
    · have hgne : g.id ≠ f.id := by
        intro he
        exact hids.1 (he ▸ List.mem_map_of_mem SourceFile.id hmem2)
      have hg := processImage_fst_id hashB thumbOf fullOf prior g
      rw [List.find?_cons_of_neg]
      · exact ih hmem2 hids.2
      · simp [hg.1, hgne]

/-- Claim C3 (modelled from the spec): a second pipeline run on
unchanged inputs, seeded with the first run's output entries, produces
the same artifact except the generation timestamp and performs zero
transcodes. -/
theorem pipeline_idempotent (hashB thumbOf fullOf : Nat → Nat)
    (prior : List OutEntry) (inputs : List SourceFile) (t1 t2 : Nat)
    (hids : (inputs.map SourceFile.id).Nodup) :
    (runPipeline hashB thumbOf fullOf
        (runPipeline hashB thumbOf fullOf prior inputs t1).1.items inputs t2).1 =
      { (runPipeline hashB thumbOf fullOf prior inputs t1).1 with
        generatedAt := t2 } ∧
    (runPipeline hashB thumbOf fullOf
        (runPipeline hashB thumbOf fullOf prior inputs t1).1.items inputs t2).2 = 0 := by
  have hitems : (runPipeline hashB thumbOf fullOf prior inputs t1).1.items =
      inputs.map (fun g => (processImage hashB thumbOf fullOf prior g).1) := by
    show ((inputs.map (processImage hashB thumbOf fullOf prior)).map Prod.fst) = _
    rw [List.map_map]
    rfl
  have hproc : ∀ f ∈ inputs,
      processImage hashB thumbOf fullOf
        (runPipeline hashB thumbOf fullOf prior inputs t1).1.items f =
        ((processImage hashB thumbOf fullOf prior f).1, 0) := by
    intro f hmem
    rw [hitems]
    exact processImage_hit hashB thumbOf fullOf _ f _
      (find_in_run1 hashB thumbOf fullOf prior inputs f hmem hids)
  have hres2 : inputs.map (processImage hashB thumbOf fullOf
      (runPipeline hashB thumbOf fullOf prior inputs t1).1.items) =
      inputs.map (fun f => ((processImage hashB thumbOf fullOf prior f).1, 0)) :=
    List.map_congr_left hproc
  constructor
  · show ({ generatedAt := t2, totalItems := _, items := _ } : PipelineArtifact) = _
    rw [show ({ (runPipeline hashB thumbOf fullOf prior inputs t1).1 with
        generatedAt := t2 } : PipelineArtifact) =
      { generatedAt := t2,
        totalItems := (runPipeline hashB thumbOf fullOf prior inputs t1).1.totalItems,
        items := (runPipeline hashB thumbOf fullOf prior inputs t1).1.items } from rfl]
    simp only [PipelineArtifact.mk.injEq]
    refine ⟨trivial, ?_, ?_⟩
    · show (inputs.map (processImage hashB thumbOf fullOf
        (runPipeline hashB thumbOf fullOf prior inputs t1).1.items)).length = _
      rw [hres2, List.length_map]
      show inputs.length = (inputs.map (processImage hashB thumbOf fullOf prior)).length
      rw [List.length_map]
    · show (inputs.map (processImage hashB thumbOf fullOf
        (runPipeline hashB thumbOf fullOf prior inputs t1).1.items)).map Prod.fst = _
      rw [hres2, hitems, List.map_map]
      rfl
  · show ((inputs.map (processImage hashB thumbOf fullOf
      (runPipeline hashB thumbOf fullOf prior inputs t1).1.items)).map Prod.snd).sum = 0
    rw [hres2, List.map_map]
    show (inputs.map (fun _ => 0)).sum = 0
    simp

/-- Witness for C3 at a concrete two-item catalog with distinct ids. -/
theorem pipeline_idempotent_witness :
    (([⟨"shirts-img-7053", "shirts", 10⟩, ⟨"pants-img-8001", "pants", 20⟩] :
        List SourceFile).map SourceFile.id).Nodup ∧
    ((runPipeline id id id
        (runPipeline id id id []
          [⟨"shirts-img-7053", "shirts", 10⟩, ⟨"pants-img-8001", "pants", 20⟩] 1).1.items
        [⟨"shirts-img-7053", "shirts", 10⟩, ⟨"pants-img-8001", "pants", 20⟩] 2).1 =
      { (runPipeline id id id []
          [⟨"shirts-img-7053", "shirts", 10⟩, ⟨"pants-img-8001", "pants", 20⟩] 1).1 with
        generatedAt := 2 } ∧
    (runPipeline id id id
        (runPipeline id id id []
          [⟨"shirts-img-7053", "shirts", 10⟩, ⟨"pants-img-8001", "pants", 20⟩] 1).1.items
        [⟨"shirts-img-7053", "shirts", 10⟩, ⟨"pants-img-8001", "pants", 20⟩] 2).2 = 0) :=
  ⟨by decide,
   pipeline_idempotent id id id []
     [⟨"shirts-img-7053", "shirts", 10⟩, ⟨"pants-img-8001", "pants", 20⟩] 1 2 (by decide)⟩

end Wardrobe
